import Mathlib

/-!
Shallow embedding of the review-batch planning and response-synthesis
pipeline of the CodeReviewAgent repository (src/review-agent.ts), together
with proofs of the specification's claims about it.

Conventions of the embedding:
* TypeScript strings become Lean `String`; JavaScript `split`, `join`,
  `slice`, `trim`, `startsWith`, `toLowerCase` are modelled by executable
  Lean functions with the same semantics (for the character sets the
  pipeline manipulates).
* The token estimator and conversation builders live in `./prompts`, a
  module that only exists at the interface boundary here; following the
  specification, batching decisions are expressed purely through a
  `fits : List PRFile → Bool` predicate standing for
  `fun fs => isConversationWithinLimit (constructPrompt fs patchBuilder convoBuilder)`.
* Asynchronous fallible steps (model calls, response builders) become
  `Except String _` values; `async` functions that catch and rethrow are
  embedded as the corresponding `Except` plumbing.
-/

/-- Modelled from the spec: the ChangedFile record (`PRFile` in the missing
`./constants` module): path identity, unified diff text, memoized token cost
of the diff, nullable post-image content. -/
structure PRFile where
  filename : String
  patch : String
  patchTokenLength : Nat
  current_contents : Option String
  deriving DecidableEq, Repr

/-- JavaScript `s.split("\n")` on the character list of a string: always
returns at least one (possibly empty) chunk, and one extra empty chunk for a
trailing newline. -/
def splitLines : List Char → List (List Char)
  | [] => [[]]
  | c :: rest =>
    if c = '\n' then [] :: splitLines rest
    else
      match splitLines rest with
      | [] => [[c]]
      | h :: t => (c :: h) :: t

/-- JavaScript `lines.join("\n")` on character lists. -/
def joinLines (ls : List (List Char)) : List Char :=
  match ls with
  | [] => []
  | [l] => l
  | l :: ls => l ++ '\n' :: joinLines ls

/-- `s.split("\n")` at the `String` level. -/
def splitNewline (s : String) : List String :=
  (splitLines s.data).map (fun l => ⟨l⟩)

/-- `lines.join("\n")` at the `String` level. -/
def joinNewline (ls : List String) : String :=
  ⟨joinLines (ls.map String.data)⟩

/-- JavaScript `s.toLowerCase()`: lower-case character by character. -/
def jsToLower (s : String) : String :=
  ⟨s.data.map Char.toLower⟩

/-- JavaScript `s.split(sep)` for a single-character separator, on character
lists: always at least one (possibly empty) chunk. -/
def splitOnCharList (sep : Char) : List Char → List (List Char)
  | [] => [[]]
  | c :: rest =>
    if c = sep then [] :: splitOnCharList sep rest
    else
      match splitOnCharList sep rest with
      | [] => [[c]]
      | h :: t => (c :: h) :: t

/-- JavaScript `s.split(sep)` for a single-character separator, at the
`String` level. -/
def jsSplitOnChar (sep : Char) (s : String) : List String :=
  (splitOnCharList sep s.data).map (fun l => ⟨l⟩)

/-- JavaScript `line.startsWith("-")` for a line given as characters. -/
def lineStartsWithDash : List Char → Bool
  | '-' :: _ => true
  | _ => false

/-- `stripRemovedLines` (src/review-agent.ts:171-179): remove every line of
the patch beginning with `-` and return a copy of the record with the
stripped patch (the `String.raw` template is the identity on the string). -/
def stripRemovedLines (originalFile : PRFile) : PRFile :=
  let strippedPatch : String :=
    ⟨joinLines ((splitLines originalFile.patch.data).filter
      (fun line => ! lineStartsWithDash line))⟩
  { originalFile with patch := strippedPatch }

/-- The extension deny-list of `filterFile` (src/review-agent.ts:49-62). -/
def extensionsToIgnore : List String :=
  ["pdf", "png", "jpg", "jpeg", "gif", "mp4", "mp3", "md", "json", "env",
   "toml", "svg"]

/-- The filename deny-list of `filterFile` (src/review-agent.ts:63-71). -/
def filesToIgnore : List String :=
  ["package-lock.json", "yarn.lock", ".gitignore", "package.json",
   "tsconfig.json", "poetry.lock", "readme.md"]

/-- `filterFile` (src/review-agent.ts:48-95): lower-case the path, take its
final `/`-segment, reject deny-listed filenames, extension-less names, and
deny-listed extensions.  JavaScript truthiness of the empty string is made
explicit. -/
def filterFile (filepath : String) : Bool :=
  let filename := (jsSplitOnChar '/' (jsToLower filepath)).getLastD ""
  if filename ≠ "" && filesToIgnore.contains filename then false
  else
    let splitFilename := jsSplitOnChar '.' (jsToLower filename)
    if splitFilename.length ≤ 1 then false
    else
      let extension := jsToLower (splitFilename.getLastD "")
      if extension ≠ "" && extensionsToIgnore.contains extension then false
      else true

/-- `filterPRFile` (src/review-agent.ts:102-104). -/
def filterPRFile (file : PRFile) : Bool :=
  filterFile file.filename

/-- The extension key used by `groupFilesByExtension`
(src/review-agent.ts:110): `file.filename.split(".").pop()?.toLowerCase()`.
`pop` of a `split` result is its last element; the JavaScript truthiness
guard skips the empty string. -/
def extensionKey (file : PRFile) : String :=
  jsToLower ((jsSplitOnChar '.' file.filename).getLastD "")

/-- Append `f` to the bucket keyed `key`, creating the bucket at the end if
absent — the insertion-order behaviour of a JavaScript `Map`. -/
def addToGroups (groups : List (String × List PRFile)) (key : String)
    (f : PRFile) : List (String × List PRFile) :=
  match groups with
  | [] => [(key, [f])]
  | (k, fs) :: rest =>
    if k = key then (k, fs ++ [f]) :: rest
    else (k, fs) :: addToGroups rest key f

/-- `groupFilesByExtension` (src/review-agent.ts:106-120): bucket the files
by the lower-cased last dot-segment of their filename, skipping files whose
segment is falsy (empty); bucket order is first-appearance order. -/
def groupFilesByExtension (files : List PRFile) : List (String × List PRFile) :=
  files.foldl
    (fun gs file =>
      let extension := extensionKey file
      if extension = "" then gs else addToGroups gs extension file)
    []

/-- Stable insertion of a file into a list ascending by `patchTokenLength`. -/
def insertByTok (x : PRFile) : List PRFile → List PRFile
  | [] => [x]
  | y :: ys =>
    if x.patchTokenLength ≤ y.patchTokenLength then x :: y :: ys
    else y :: insertByTok x ys

/-- `filesForExt.sort((a, b) => a.patchTokenLength - b.patchTokenLength)`
(src/review-agent.ts:148): the stable ascending sort required of JavaScript
`Array.prototype.sort`, modelled as stable insertion sort. -/
def sortByTok (l : List PRFile) : List PRFile :=
  l.foldr insertByTok []

/-- One step of the greedy accumulation loop of `processWithinLimitFiles`
(src/review-agent.ts:149-159): state is (closed groups, running group). -/
def greedyStep (fits : List PRFile → Bool)
    (st : List (List PRFile) × List PRFile) (file : PRFile) :
    List (List PRFile) × List PRFile :=
  if fits (st.2 ++ [file]) then (st.1, st.2 ++ [file])
  else (st.1 ++ [st.2], [file])

/-- The greedy loop over one extension group, including the final flush of a
non-empty running group (src/review-agent.ts:147-162). -/
def greedyGroups (fits : List PRFile → Bool) (files : List PRFile) :
    List (List PRFile) :=
  let st := files.foldl (greedyStep fits) ([], [])
  if st.2.isEmpty then st.1 else st.1 ++ [st.2]

/-- `processWithinLimitFiles` (src/review-agent.ts:123-169), with
`fun fs => isConversationWithinLimit (constructPrompt fs patchBuilder convoBuilder)`
abstracted as `fits`.  If everything fits, one batch; otherwise per
extension group: the whole group if it fits, else greedy packing of the
group sorted ascending by memoized token length. -/
def processWithinLimitFiles (fits : List PRFile → Bool)
    (files : List PRFile) : List (List PRFile) :=
  if fits files then [files]
  else
    (groupFilesByExtension files).flatMap
      (fun g =>
        if fits g.2 then [g.2]
        else greedyGroups fits (sortByTok g.2))

/-- `processOutsideLimitFiles` (src/review-agent.ts:181-223), `fits`
abstracted as above.  Strip removed lines from every file; if the stripped
whole set fits, one batch; otherwise re-partition by single-file fit and
route the now-fitting files through `processWithinLimitFiles` (still-too-
large files are only logged). -/
def processOutsideLimitFiles (fits : List PRFile → Bool)
    (files : List PRFile) : List (List PRFile) :=
  if files.length = 0 then []
  else
    let files := files.map stripRemovedLines
    if fits files then [files]
    else
      let withinLimits := files.filter (fun f => fits [f])
      processWithinLimitFiles fits withinLimits

/-- Modelled from the spec: the structured Suggestion record (`PRSuggestion`
in the missing `./constants` module): filename, category tag, free-text
comment, proposed code block, human description. -/
structure PRSuggestion where
  describe : String
  type : String
  comment : String
  code : String
  filename : String
  deriving DecidableEq, Repr

/-- Modelled from the spec: `PRSuggestionImpl.identity()` (the missing
`./data/PRSuggestionImpl` module): a composite key derived from target
filename + human-readable description + proposed code text, so two
suggestions are the same iff they agree on those three fields. -/
def PRSuggestion.identity (s : PRSuggestion) : String × String × String :=
  (s.filename, s.describe, s.code)

/-- One `suggestionsMap.set(suggestion.identity(), suggestion)` step of
`dedupSuggestions`: a JavaScript `Map.set` overwrites the value in place on
a key hit and appends a fresh entry otherwise. -/
def dedupInsert (m : List ((String × String × String) × PRSuggestion))
    (s : PRSuggestion) : List ((String × String × String) × PRSuggestion) :=
  match m with
  | [] => [(s.identity, s)]
  | (k, v) :: rest =>
    if k = s.identity then (k, s) :: rest
    else (k, v) :: dedupInsert rest s

/-- `dedupSuggestions` (src/review-agent.ts:285-293): populate a map keyed
by `identity()` (later writes overwrite earlier ones, key order is first
insertion) and return its values. -/
def dedupSuggestions (suggestions : List PRSuggestion) : List PRSuggestion :=
  (suggestions.foldl dedupInsert []).map Prod.snd

/-- The characters JavaScript `encodeURIComponent` leaves unescaped:
alphanumerics and `- _ . ! ~ * ' ( )`. -/
def isUnreservedURIChar (c : Char) : Bool :=
  (('A' ≤ c && c ≤ 'Z') || ('a' ≤ c && c ≤ 'z') || ('0' ≤ c && c ≤ '9')
    || c = '-' || c = '_' || c = '.' || c = '!' || c = '~' || c = '*'
    || c = Char.ofNat 39 || c = '(' || c = ')')

/-- Upper-case hexadecimal digit for a value below 16. -/
def hexDigit (n : Nat) : Char :=
  if n < 10 then Char.ofNat (48 + n) else Char.ofNat (55 + n)

/-- The UTF-8 bytes of one code point. -/
def utf8Bytes (c : Char) : List Nat :=
  let n := c.toNat
  if n < 128 then [n]
  else if n < 2048 then [192 + n / 64, 128 + n % 64]
  else if n < 65536 then [224 + n / 4096, 128 + (n / 64) % 64, 128 + n % 64]
  else [240 + n / 262144, 128 + (n / 4096) % 64, 128 + (n / 64) % 64,
        128 + n % 64]

/-- JavaScript `encodeURIComponent`: unreserved characters pass through,
every other character is replaced by the percent-encoding of its UTF-8
bytes, upper-case hex. -/
def encodeURIComponent (s : String) : String :=
  ⟨(s.data.map (fun c =>
      if isUnreservedURIChar c then [c]
      else (utf8Bytes c).flatMap
        (fun b => ['%', hexDigit (b / 16), hexDigit (b % 16)]))).flatten⟩

/-- The `encodedCodeBlock` value of `generateGithubIssueUrl`
(src/review-agent.ts:273-275).  The JavaScript `codeblock ? ... : ""` guard
treats an absent or empty code block as the empty string. -/
def encodedCodeBlockPart (codeblock : Option String) : String :=
  match codeblock with
  | some cb => if cb = "" then "" else encodeURIComponent ("\n" ++ cb ++ "\n")
  | none => ""

/-- The composer URL of `generateGithubIssueUrl` without the code block —
the string built by the over-budget fallback branch
(src/review-agent.ts:280). -/
def githubIssueBaseUrl (owner repoName title body : String) : String :=
  "https://github.com/" ++ owner ++ "/" ++ repoName
    ++ "/issues/new?title=" ++ encodeURIComponent title
    ++ "&body=" ++ encodeURIComponent body

/-- The `url` value of `generateGithubIssueUrl` after its length check
(src/review-agent.ts:277-281): the fully-populated composer URL, rebuilt
without the code block when it exceeds 2048 characters. -/
def generateGithubIssueUrlCore (owner repoName title body : String)
    (codeblock : Option String) : String :=
  let url := githubIssueBaseUrl owner repoName title body
    ++ encodedCodeBlockPart codeblock
  if url.length > 2048 then githubIssueBaseUrl owner repoName title body
  else url

/-- `generateGithubIssueUrl` (src/review-agent.ts:264-283): the markdown
link wrapping the (possibly degraded) composer URL. -/
def generateGithubIssueUrl (owner repoName title body : String)
    (codeblock : Option String) : String :=
  "[Create Issue](" ++ generateGithubIssueUrlCore owner repoName title body codeblock ++ ")"

/-- Modelled from the spec: `PR_SUGGESTION_TEMPLATE` (the missing
`./prompts` module): a templated block holding the comment, the code
payload and the issue link. -/
def PR_SUGGESTION_TEMPLATE : String :=
  "{COMMENT}\n{CODE}\n{ISSUE_LINK}"

/-- JavaScript `s.replace(pattern, replacement)` for a plain-string pattern:
replace the first occurrence only. -/
def jsReplaceOnce (s pattern replacement : String) : String :=
  match s.splitOn pattern with
  | [] => s
  | [_] => s
  | first :: second :: rest =>
    first ++ replacement ++ String.intercalate pattern (second :: rest)

/-- Append a suggestion to the bucket of its filename, creating the bucket
at the end if absent (insertion-order `Map` of
`convertPRSuggestionToComment`, src/review-agent.ts:307-313). -/
def addToSuggestionGroups (groups : List (String × List PRSuggestion))
    (s : PRSuggestion) : List (String × List PRSuggestion) :=
  match groups with
  | [] => [(s.filename, [s])]
  | (k, vs) :: rest =>
    if k = s.filename then (k, vs ++ [s]) :: rest
    else (k, vs) :: addToSuggestionGroups rest s

/-- `convertPRSuggestionToComment` (src/review-agent.ts:302-334): group the
suggestions by filename, then render a heading plus one templated block per
suggestion, with the generated issue deep-link. -/
def convertPRSuggestionToComment (owner repo : String)
    (suggestions : List PRSuggestion) : List String :=
  let suggestionsMap := suggestions.foldl addToSuggestionGroups []
  suggestionsMap.map (fun g =>
    String.intercalate "\n"
      (("## " ++ g.1 ++ "\n") ::
        g.2.map (fun suggestion =>
          let issueLink := generateGithubIssueUrl owner repo
            suggestion.describe suggestion.comment (some suggestion.code)
          jsReplaceOnce
            (jsReplaceOnce
              (jsReplaceOnce PR_SUGGESTION_TEMPLATE "{COMMENT}" suggestion.comment)
              "{CODE}" suggestion.code)
            "{ISSUE_LINK}" issueLink)))

/-- The `BuilderResponse` record of the missing `./constants` module: the
rendered comment blob plus the structured suggestion list. -/
structure BuilderResponse where
  comment : String
  structuredComments : List PRSuggestion
  deriving DecidableEq, Repr

/-- `xmlResponseBuilder` (src/review-agent.ts:343-357) downstream of the
XML parse: render the comments from the de-duplicated suggestions, but hand
the raw parsed list through as `structuredComments`. -/
def xmlResponseBuilder (owner repoName : String)
    (parsedXMLSuggestions : List PRSuggestion) : BuilderResponse :=
  let comments := convertPRSuggestionToComment owner repoName
    (dedupSuggestions parsedXMLSuggestions)
  { comment := String.intercalate "\n" comments
    structuredComments := parsedXMLSuggestions }

/-- The token-length memoization step of `reviewChanges`
(src/review-agent.ts:390-392): `file.patchTokenLength = getTokenLength(patchBuilder(file))`,
with `getTokenLength ∘ patchBuilder` abstracted as `tokLen`. -/
def annotateTokenLength (tokLen : PRFile → Nat) (file : PRFile) : PRFile :=
  { file with patchTokenLength := tokLen file }

/-- The deterministic planning phase of `reviewChanges`
(src/review-agent.ts:386-429): filter, memoize token lengths, partition by
single-file fit, and run both planners.  Returns the post-planning state of
the surviving file records together with the batch list
`[...withinLimitsPatchGroups, ...exceedingLimitsPatchGroups]`. -/
def reviewChangesPlan (fits : List PRFile → Bool) (tokLen : PRFile → Nat)
    (files : List PRFile) : List PRFile × List (List PRFile) :=
  let filteredFiles := (files.filter filterPRFile).map (annotateTokenLength tokLen)
  let patchesWithinModelLimit := filteredFiles.filter (fun f => fits [f])
  let patchesOutsideModelLimit := filteredFiles.filter (fun f => ! fits [f])
  (filteredFiles,
    processWithinLimitFiles fits patchesWithinModelLimit
      ++ processOutsideLimitFiles fits patchesOutsideModelLimit)

/-- `reviewChanges` (src/review-agent.ts:378-443) with the model call per
batch (`reviewFiles`) and the response builder embedded as `Except`-valued
functions: every batch is reviewed, and a response-builder failure (the
caught-and-rethrown XML parse error) propagates. -/
def reviewChanges (fits : List PRFile → Bool) (tokLen : PRFile → Nat)
    (modelCall : List PRFile → Except String String)
    (responseBuilder : List String → Except String BuilderResponse)
    (files : List PRFile) : Except String BuilderResponse := do
  let groups := (reviewChangesPlan fits tokLen files).2
  let feedbacks ← groups.mapM modelCall
  responseBuilder feedbacks

/-- `reviewChangesRetry` (src/review-agent.ts:560-578): try each
(convoBuilder, responseBuilder) pair in order with `run` standing for
`reviewChanges files convoBuilder responseBuilder`; return the first
success, advance on error, and throw once every pair has failed. -/
def reviewChangesRetry {β ρ : Type} (builders : List β)
    (run : β → Except String ρ) : Except String ρ :=
  match builders with
  | [] => .error "All convoBuilders failed."
  | b :: rest =>
    match run b with
    | .ok result => .ok result
    | .error _ => reviewChangesRetry rest run

/-- The `CodeSuggestion` record of the missing `./constants` module
(an inline fix): filename, 1-based inclusive line range, replacement,
comment. -/
structure CodeSuggestion where
  file : String
  line_start : Int
  line_end : Int
  correction : String
  comment : String
  deriving DecidableEq, Repr

/-- JavaScript `Array.prototype.slice(s, e)`: negative indices count from
the end, indices clamp to the array bounds, elements `[s, e)`. -/
def jsSlice {α : Type} (l : List α) (s e : Int) : List α :=
  let len : Int := l.length
  let start := (if s < 0 then max (len + s) 0 else min s len).toNat
  let stop := (if e < 0 then max (len + e) 0 else min e len).toNat
  (l.take stop).drop start

/-- `indentCodeFix` (src/review-agent.ts:445-456): prefix every line of the
proposed code with the leading whitespace of the target range's first line.
Returns `none` when `fileLines[lineStart - 1]` is not a line (the JavaScript
code would throw on `undefined.match`, caught by the caller). -/
def indentCodeFix (file code : String) (lineStart : Int) : Option String :=
  let fileLines := splitNewline file
  if lineStart - 1 < 0 then none
  else
    match fileLines.get? (lineStart - 1).toNat with
    | none => none
    | some firstLine =>
      let indentation : String := ⟨firstLine.data.takeWhile Char.isWhitespace⟩
      some (joinNewline ((splitNewline code).map (fun line => indentation ++ line)))

/-- `isCodeSuggestionNew` (src/review-agent.ts:458-471): the fix is new iff
the trimmed text of the current target line range differs from the trimmed
correction. -/
def isCodeSuggestionNew (contents : String) (suggestion : CodeSuggestion) : Bool :=
  let fileLines := splitNewline contents
  let targetLines :=
    joinNewline (jsSlice fileLines (suggestion.line_start - 1) suggestion.line_end)
  if targetLines.trim = suggestion.correction.trim then false
  else true

/-- The model's function-call payload for an inline fix (spec §6): named
arguments `code`, `lineStart`, `lineEnd`, `comment`. -/
structure InlineFixArgs where
  code : String
  lineStart : Int
  lineEnd : Int
  comment : String
  deriving DecidableEq, Repr

/-- The deterministic tail of `generateInlineComments`
(src/review-agent.ts:487-508), after the model has produced its
function-call arguments: re-indent, assemble the `CodeSuggestion`, and keep
it only when `isCodeSuggestionNew` holds; a thrown indentation error is
caught and yields `none`, as does the no-op check. -/
def generateInlineComments (suggestionFilename : String)
    (currentContents : String) (args : InlineFixArgs) : Option CodeSuggestion :=
  match indentCodeFix currentContents args.code args.lineStart with
  | none => none
  | some indentedCode =>
    let codeFix : CodeSuggestion :=
      { file := suggestionFilename
        line_start := args.lineStart
        line_end := args.lineEnd
        correction := indentedCode
        comment := args.comment }
    if isCodeSuggestionNew currentContents codeFix then some codeFix else none

/-- The `ReviewResult` handed back by `processPullRequest`: the review blob
(or nothing) and the accepted inline fixes. -/
structure ReviewResult where
  review : Option BuilderResponse
  suggestions : List CodeSuggestion
  deriving DecidableEq, Repr

/-- `processPullRequest` (src/review-agent.ts:590-658) up to its first model
interaction: filter the incoming files and short-circuit with an empty
result when nothing survives; the whole remainder of the pipeline
(preprocessing, review, inline fixes — everything that can call the model)
is abstracted as the continuation `rest`, which the short-circuit never
invokes. -/
def processPullRequest (files : List PRFile)
    (rest : List PRFile → ReviewResult) : ReviewResult :=
  let filteredFiles := files.filter filterPRFile
  if filteredFiles.length = 0 then { review := none, suggestions := [] }
  else rest filteredFiles

/-- Modelled from the spec: a concrete instance of the
`isConversationWithinLimit ∘ constructPrompt` budget check of the missing
`./prompts` module (§4.2): total estimated cost, here the sum of the files'
memoized diff costs plus a fixed prompt overhead, must stay within the
model context budget net of the output-reservation margin. -/
def specFits (budget : Nat) (files : List PRFile) : Bool :=
  (files.map PRFile.patchTokenLength).sum + files.length + 1 ≤ budget

/-! ### Line splitting and joining -/

theorem splitLines_ne_nil (l : List Char) : splitLines l ≠ [] := by
  induction l with
  | nil => simp [splitLines]
  | cons c rest ih =>
    simp only [splitLines]
    split
    · simp
    · cases hsr : splitLines rest with
      | nil => simp
      | cons h t => simp

theorem joinLines_cons_cons (x y : List Char) (t : List (List Char)) :
    joinLines (x :: y :: t) = x ++ '\n' :: joinLines (y :: t) := rfl

theorem joinLines_splitLines (l : List Char) :
    joinLines (splitLines l) = l := by
  induction l with
  | nil => rfl
  | cons c rest ih =>
    by_cases hc : c = '\n'
    · subst hc
      cases hsr : splitLines rest with
      | nil => exact absurd hsr (splitLines_ne_nil rest)
      | cons h t =>
        have : splitLines ('\n' :: rest) = [] :: h :: t := by
          simp [splitLines, hsr]
        rw [this, joinLines_cons_cons]
        rw [hsr] at ih
        simp [ih]
    · cases hsr : splitLines rest with
      | nil => exact absurd hsr (splitLines_ne_nil rest)
      | cons h t =>
        have hs : splitLines (c :: rest) = (c :: h) :: t := by
          simp [splitLines, hc, hsr]
        rw [hs]
        rw [hsr] at ih
        cases t with
        | nil =>
          simp [joinLines] at ih ⊢
          simp [ih]
        | cons y t2 =>
          rw [joinLines_cons_cons] at ih ⊢
          simp at ih ⊢
          simp [ih]

theorem newline_not_mem_splitLines (l : List Char) :
    ∀ s ∈ splitLines l, '\n' ∉ s := by
  induction l with
  | nil => intro s hs; simp [splitLines] at hs; simp [hs]
  | cons c rest ih =>
    intro s hs
    by_cases hc : c = '\n'
    · subst hc
      have hs2 : s ∈ [] :: splitLines rest := by
        simpa [splitLines] using hs
      rcases List.mem_cons.mp hs2 with h1 | h2
      · simp [h1]
      · exact ih s h2
    · cases hsr : splitLines rest with
      | nil => exact absurd hsr (splitLines_ne_nil rest)
      | cons h t =>
        have hsp : splitLines (c :: rest) = (c :: h) :: t := by
          simp [splitLines, hc, hsr]
        rw [hsp] at hs
        rcases List.mem_cons.mp hs with h1 | h2
        · subst h1
          intro hmem
          rcases List.mem_cons.mp hmem with h3 | h4
          · exact hc h3.symm
          · exact ih h (by rw [hsr]; exact List.mem_cons_self _ _) h4
        · exact ih s (by rw [hsr]; exact List.mem_cons_of_mem _ h2)

theorem splitLines_of_no_newline (h : List Char) (hn : '\n' ∉ h) :
    splitLines h = [h] := by
  induction h with
  | nil => rfl
  | cons c rest ih =>
    have hc : c ≠ '\n' := fun hc => hn (hc ▸ List.mem_cons_self _ _)
    have hrest : '\n' ∉ rest := fun hm => hn (List.mem_cons_of_mem _ hm)
    simp [splitLines, hc, ih hrest]

theorem splitLines_append_newline (h : List Char) (hn : '\n' ∉ h)
    (r : List Char) : splitLines (h ++ '\n' :: r) = h :: splitLines r := by
  induction h with
  | nil => simp [splitLines]
  | cons c rest ih =>
    have hc : c ≠ '\n' := fun hc => hn (hc ▸ List.mem_cons_self _ _)
    have hrest : '\n' ∉ rest := fun hm => hn (List.mem_cons_of_mem _ hm)
    have hih := ih hrest
    simp only [List.cons_append, splitLines, if_neg hc, List.append_eq, hih]

theorem splitLines_joinLines (L : List (List Char)) (hL : L ≠ [])
    (hn : ∀ l ∈ L, '\n' ∉ l) : splitLines (joinLines L) = L := by
  induction L with
  | nil => contradiction
  | cons h t ih =>
    cases t with
    | nil =>
      show splitLines (joinLines [h]) = [h]
      have : joinLines [h] = h := rfl
      rw [this]
      exact splitLines_of_no_newline h (hn h (List.mem_cons_self _ _))
    | cons y t2 =>
      rw [joinLines_cons_cons]
      rw [splitLines_append_newline h (hn h (List.mem_cons_self _ _))]
      rw [ih (by simp) (fun l hl => hn l (List.mem_cons_of_mem _ hl))]

/-- C9: deletion-stripping is idempotent.  A file whose patch has no line
beginning with `-` is unchanged by `stripRemovedLines`, and in general
`stripRemovedLines (stripRemovedLines f)` has the same patch text as
`stripRemovedLines f`. -/
theorem stripRemovedLines_idempotent :
    (∀ f : PRFile,
        (∀ line ∈ splitLines f.patch.data, lineStartsWithDash line = false) →
        (stripRemovedLines f).patch = f.patch)
    ∧ ∀ f : PRFile,
        (stripRemovedLines (stripRemovedLines f)).patch
          = (stripRemovedLines f).patch := by
  constructor
  · intro f hf
    have hfilter :
        (splitLines f.patch.data).filter (fun line => ! lineStartsWithDash line)
          = splitLines f.patch.data :=
      List.filter_eq_self.mpr (fun a ha => by simp [hf a ha])
    have hdata : (stripRemovedLines f).patch.data = f.patch.data := by
      show joinLines ((splitLines f.patch.data).filter
        (fun line => ! lineStartsWithDash line)) = f.patch.data
      rw [hfilter, joinLines_splitLines]
    exact String.ext hdata
  · intro f
    apply String.ext
    show joinLines ((splitLines (joinLines ((splitLines f.patch.data).filter
        (fun line => ! lineStartsWithDash line)))).filter
        (fun line => ! lineStartsWithDash line))
      = joinLines ((splitLines f.patch.data).filter
        (fun line => ! lineStartsWithDash line))
    generalize f.patch.data = s
    by_cases hL : (splitLines s).filter (fun line => ! lineStartsWithDash line) = []
    · rw [hL]
      rfl
    · have hnn : ∀ l ∈ (splitLines s).filter
          (fun line => ! lineStartsWithDash line), '\n' ∉ l :=
        fun l hl => newline_not_mem_splitLines s l (List.mem_of_mem_filter hl)
      rw [splitLines_joinLines _ hL hnn]
      have hfil : ((splitLines s).filter
            (fun line => ! lineStartsWithDash line)).filter
            (fun line => ! lineStartsWithDash line)
          = (splitLines s).filter (fun line => ! lineStartsWithDash line) := by
        apply List.filter_eq_self.mpr
        intro a ha
        have h2 := List.of_mem_filter ha
        exact h2
      rw [hfil]

/-- Witness for C9 at concrete inputs: an already-stripped patch is fixed by
`stripRemovedLines`, and a once-stripped patch with deletions is fixed by a
second pass. -/
theorem stripRemovedLines_idempotent_witness :
    (stripRemovedLines ⟨"a.ts", "ctx\n+new", 3, none⟩).patch = "ctx\n+new"
    ∧ (stripRemovedLines
        (stripRemovedLines ⟨"b.ts", "-old\n+new\nctx", 5, none⟩)).patch
      = (stripRemovedLines ⟨"b.ts", "-old\n+new\nctx", 5, none⟩).patch :=
  ⟨stripRemovedLines_idempotent.1 ⟨"a.ts", "ctx\n+new", 3, none⟩ (by decide),
   stripRemovedLines_idempotent.2 ⟨"b.ts", "-old\n+new\nctx", 5, none⟩⟩

/-! ### The deduplication map -/

/-- Front-to-back key search in the embedded suggestion map. -/
def dedupFind (m : List ((String × String × String) × PRSuggestion))
    (k : String × String × String) : Option PRSuggestion :=
  match m with
  | [] => none
  | (k', v) :: rest => if k' = k then some v else dedupFind rest k

theorem dedupFind_dedupInsert
    (m : List ((String × String × String) × PRSuggestion))
    (s : PRSuggestion) (k : String × String × String) :
    dedupFind (dedupInsert m s) k
      = if k = s.identity then some s else dedupFind m k := by
  induction m with
  | nil =>
    by_cases hk : k = s.identity
    · simp [dedupInsert, dedupFind, hk]
    · have h2 : ¬ s.identity = k := fun h => hk h.symm
      simp [dedupInsert, dedupFind, hk, h2]
  | cons p rest ih =>
    obtain ⟨k', v⟩ := p
    by_cases hks : k' = s.identity
    · rw [dedupInsert, if_pos hks]
      by_cases hk : k' = k
      · have hk2 : k = s.identity := hk.symm.trans hks
        rw [if_pos hk2]
        show (if k' = k then some s else dedupFind rest k) = some s
        rw [if_pos hk]
      · have hk2 : ¬ k = s.identity := fun h => hk (hks.trans h.symm)
        rw [if_neg hk2]
        show (if k' = k then some s else dedupFind rest k)
          = dedupFind ((k', v) :: rest) k
        rw [if_neg hk]
        show dedupFind rest k = if k' = k then some v else dedupFind rest k
        rw [if_neg hk]
    · rw [dedupInsert, if_neg hks]
      by_cases hk : k' = k
      · have hk2 : ¬ k = s.identity := fun h => hks (hk.trans h)
        rw [if_neg hk2]
        show (if k' = k then some v else dedupFind (dedupInsert rest s) k)
          = dedupFind ((k', v) :: rest) k
        rw [if_pos hk]
        show some v = if k' = k then some v else dedupFind rest k
        rw [if_pos hk]
      · show (if k' = k then some v else dedupFind (dedupInsert rest s) k) = _
        rw [if_neg hk, ih]
        by_cases hk2 : k = s.identity
        · rw [if_pos hk2, if_pos hk2]
        · rw [if_neg hk2, if_neg hk2]
          show dedupFind rest k = if k' = k then some v else dedupFind rest k
          rw [if_neg hk]

theorem dedupFind_foldl_of_not_mem (l : List PRSuggestion)
    (m : List ((String × String × String) × PRSuggestion))
    (k : String × String × String) (h : ∀ s ∈ l, s.identity ≠ k) :
    dedupFind (l.foldl dedupInsert m) k = dedupFind m k := by
  induction l generalizing m with
  | nil => rfl
  | cons s rest ih =>
    have hs : s.identity ≠ k := h s (List.mem_cons_self _ _)
    have hrest : ∀ t ∈ rest, t.identity ≠ k :=
      fun t ht => h t (List.mem_cons_of_mem _ ht)
    show dedupFind (rest.foldl dedupInsert (dedupInsert m s)) k = dedupFind m k
    rw [ih (dedupInsert m s) hrest, dedupFind_dedupInsert,
      if_neg (fun hk => hs hk.symm)]

theorem dedupFind_foldl_isSome (l : List PRSuggestion)
    (m : List ((String × String × String) × PRSuggestion))
    (k : String × String × String) (h : (dedupFind m k).isSome) :
    (dedupFind (l.foldl dedupInsert m) k).isSome := by
  induction l generalizing m with
  | nil => exact h
  | cons s rest ih =>
    show (dedupFind (rest.foldl dedupInsert (dedupInsert m s)) k).isSome
    apply ih
    rw [dedupFind_dedupInsert]
    by_cases hk : k = s.identity
    · simp [hk]
    · simpa [hk] using h

theorem dedupInsert_mem_keys
    (m : List ((String × String × String) × PRSuggestion))
    (s : PRSuggestion) (k : String × String × String) :
    k ∈ (dedupInsert m s).map Prod.fst
      ↔ k ∈ m.map Prod.fst ∨ k = s.identity := by
  induction m with
  | nil => simp [dedupInsert]
  | cons p rest ih =>
    obtain ⟨k', v⟩ := p
    by_cases hks : k' = s.identity
    · rw [dedupInsert, if_pos hks]
      simp only [List.map_cons, List.mem_cons]
      constructor
      · rintro (h1 | h1)
        · exact Or.inl (Or.inl h1)
        · exact Or.inl (Or.inr h1)
      · rintro ((h1 | h1) | h1)
        · exact Or.inl h1
        · exact Or.inr h1
        · exact Or.inl (h1.trans hks.symm)
    · rw [dedupInsert, if_neg hks]
      simp only [List.map_cons, List.mem_cons, ih]
      tauto

theorem dedupInsert_wellKeyed
    (m : List ((String × String × String) × PRSuggestion))
    (s : PRSuggestion) (h : ∀ p ∈ m, p.1 = p.2.identity) :
    ∀ p ∈ dedupInsert m s, p.1 = p.2.identity := by
  induction m with
  | nil =>
    intro p hp
    simp only [dedupInsert, List.mem_singleton] at hp
    simp [hp]
  | cons q rest ih =>
    obtain ⟨k', v⟩ := q
    intro p hp
    by_cases hks : k' = s.identity
    · rw [dedupInsert, if_pos hks] at hp
      rcases List.mem_cons.mp hp with h1 | h2
      · simp [h1, hks]
      · exact h p (List.mem_cons_of_mem _ h2)
    · rw [dedupInsert, if_neg hks] at hp
      rcases List.mem_cons.mp hp with h1 | h2
      · exact h p (h1 ▸ List.mem_cons_self _ _)
      · exact ih (fun q hq => h q (List.mem_cons_of_mem _ hq)) p h2

theorem dedupInsert_keysNodup
    (m : List ((String × String × String) × PRSuggestion))
    (s : PRSuggestion) (h : (m.map Prod.fst).Nodup) :
    ((dedupInsert m s).map Prod.fst).Nodup := by
  induction m with
  | nil => simp [dedupInsert]
  | cons p rest ih =>
    obtain ⟨k', v⟩ := p
    simp only [List.map_cons, List.nodup_cons] at h
    by_cases hks : k' = s.identity
    · rw [dedupInsert, if_pos hks]
      simp only [List.map_cons, List.nodup_cons]
      exact ⟨h.1, h.2⟩
    · rw [dedupInsert, if_neg hks]
      simp only [List.map_cons, List.nodup_cons]
      refine ⟨?_, ih h.2⟩
      intro hmem
      rcases (dedupInsert_mem_keys rest s k').mp hmem with h1 | h2
      · exact h.1 h1
      · exact hks h2

theorem foldl_dedupInsert_wellKeyed (l : List PRSuggestion)
    (m : List ((String × String × String) × PRSuggestion))
    (h : ∀ p ∈ m, p.1 = p.2.identity) :
    ∀ p ∈ l.foldl dedupInsert m, p.1 = p.2.identity := by
  induction l generalizing m with
  | nil => exact h
  | cons s rest ih => exact ih (dedupInsert m s) (dedupInsert_wellKeyed m s h)

theorem foldl_dedupInsert_keysNodup (l : List PRSuggestion)
    (m : List ((String × String × String) × PRSuggestion))
    (h : (m.map Prod.fst).Nodup) :
    ((l.foldl dedupInsert m).map Prod.fst).Nodup := by
  induction l generalizing m with
  | nil => exact h
  | cons s rest ih => exact ih (dedupInsert m s) (dedupInsert_keysNodup m s h)

theorem filter_map_snd_eq_find
    (m : List ((String × String × String) × PRSuggestion))
    (k : String × String × String)
    (hwk : ∀ p ∈ m, p.1 = p.2.identity)
    (hnd : (m.map Prod.fst).Nodup) :
    (m.map Prod.snd).filter (fun t => t.identity = k)
      = (dedupFind m k).toList := by
  induction m with
  | nil => rfl
  | cons p rest ih =>
    obtain ⟨k', v⟩ := p
    simp only [List.map_cons, List.nodup_cons] at hnd
    have hv : k' = v.identity := hwk (k', v) (List.mem_cons_self _ _)
    have hwkrest : ∀ q ∈ rest, q.1 = q.2.identity :=
      fun q hq => hwk q (List.mem_cons_of_mem _ hq)
    by_cases hk : k' = k
    · have hvk : v.identity = k := hv ▸ hk
      have hnone : (rest.map Prod.snd).filter (fun t => t.identity = k) = [] := by
        apply List.filter_eq_nil_iff.mpr
        intro t ht
        rcases List.mem_map.mp ht with ⟨q, hq, hqt⟩
        have : q.1 = t.identity := hqt ▸ hwkrest q hq
        intro habs
        apply hnd.1
        rw [← hk] at habs
        have : q.1 = k' := by
          rw [this]
          simpa using habs
        rw [← this]
        exact List.mem_map_of_mem Prod.fst hq
      simp only [List.map_cons, List.filter_cons, hvk, dedupFind, if_pos hk,
        hnone]
      simp
    · have hvk : ¬ v.identity = k := fun habs => hk (hv.trans habs)
      simp only [List.map_cons, List.filter_cons, dedupFind, if_neg hk]
      simp [hvk, ih hwkrest hnd.2]

theorem dedupFind_foldl_mem_isSome (l : List PRSuggestion)
    (m : List ((String × String × String) × PRSuggestion))
    (s : PRSuggestion) (hs : s ∈ l) :
    (dedupFind (l.foldl dedupInsert m) s.identity).isSome := by
  induction l generalizing m with
  | nil => cases hs
  | cons t rest ih =>
    show (dedupFind (rest.foldl dedupInsert (dedupInsert m t)) s.identity).isSome
    rcases List.mem_cons.mp hs with h1 | h2
    · apply dedupFind_foldl_isSome
      rw [dedupFind_dedupInsert, h1]
      simp
    · exact ih (dedupInsert m t) h2

/-- C3 counterexample: `xmlResponseBuilder` hands the raw parsed list
through as `structuredComments`, so two suggestions with equal identity keys
survive into the downstream list. -/
theorem xmlResponseBuilder_structuredComments_duplicate :
    ¬ ((xmlResponseBuilder "octo" "repo"
        [⟨"dup", "bug", "first comment", "code", "f.ts"⟩,
         ⟨"dup", "bug", "second comment", "code", "f.ts"⟩]).structuredComments.Pairwise
      (fun a b => a.identity ≠ b.identity)) := by
  decide

/-- C3 (amended): `dedupSuggestions` does produce a list with pairwise
distinct identity keys, and the comment-rendering path of
`xmlResponseBuilder` consumes that deduplicated list — but the
`structuredComments` field handed downstream is the raw parsed list, not the
deduplicated one. -/
theorem dedupSuggestions_distinct_structuredComments_raw :
    ∀ (owner repoName : String) (parsed : List PRSuggestion),
      (dedupSuggestions parsed).Pairwise (fun a b => a.identity ≠ b.identity)
      ∧ (xmlResponseBuilder owner repoName parsed).structuredComments
          = parsed := by
  intro owner repoName parsed
  constructor
  · have hwk := foldl_dedupInsert_wellKeyed parsed [] (by simp)
    have hnd := foldl_dedupInsert_keysNodup parsed [] (by simp)
    have hpair : (parsed.foldl dedupInsert []).Pairwise
        (fun p q => p.1 ≠ q.1) := List.pairwise_map.mp hnd
    have hpair2 : (parsed.foldl dedupInsert []).Pairwise
        (fun p q => p.2.identity ≠ q.2.identity) := by
      refine hpair.imp_of_mem ?_
      intro p q hp hq hne
      rw [← hwk p hp, ← hwk q hq]
      exact hne
    exact List.pairwise_map.mpr hpair2
  · rfl

/-- C8: deduplication is deterministic last-write-wins.  If `B` is the last
element of the list carrying its identity key, the deduplicated output
contains exactly `B` for that key, and every key occurring in the input
occurs exactly once in the output. -/
theorem dedupSuggestions_lastWriteWins :
    ∀ (l₁ l₂ : List PRSuggestion) (B : PRSuggestion),
      (∀ s ∈ l₂, s.identity ≠ B.identity) →
      ((dedupSuggestions (l₁ ++ B :: l₂)).filter
          (fun t => t.identity = B.identity) = [B])
      ∧ ∀ s ∈ l₁ ++ B :: l₂,
          ((dedupSuggestions (l₁ ++ B :: l₂)).filter
              (fun t => t.identity = s.identity)).length = 1 := by
  intro l₁ l₂ B h
  have hwk := foldl_dedupInsert_wellKeyed (l₁ ++ B :: l₂) [] (by simp)
  have hnd := foldl_dedupInsert_keysNodup (l₁ ++ B :: l₂) [] (by simp)
  constructor
  · have hfind : dedupFind ((l₁ ++ B :: l₂).foldl dedupInsert []) B.identity
        = some B := by
      rw [List.foldl_append, List.foldl_cons,
        dedupFind_foldl_of_not_mem l₂ _ _ h, dedupFind_dedupInsert, if_pos rfl]
    show List.filter (fun t => t.identity = B.identity)
        (List.map Prod.snd ((l₁ ++ B :: l₂).foldl dedupInsert [])) = [B]
    rw [filter_map_snd_eq_find _ _ hwk hnd, hfind]
    rfl
  · intro s hs
    have hsome := dedupFind_foldl_mem_isSome (l₁ ++ B :: l₂) [] s hs
    show (List.filter (fun t => t.identity = s.identity)
        (List.map Prod.snd ((l₁ ++ B :: l₂).foldl dedupInsert []))).length = 1
    rw [filter_map_snd_eq_find _ _ hwk hnd]
    rcases hopt : dedupFind ((l₁ ++ B :: l₂).foldl dedupInsert []) s.identity
      with _ | v
    · rw [hopt] at hsome
      simp at hsome
    · rfl

/-- Witness for C8 at a concrete input: two suggestions sharing an identity
key (same filename, description and code; different comment) — the later one
wins. -/
theorem dedupSuggestions_lastWriteWins_witness :
    ((dedupSuggestions
        [⟨"dup", "bug", "first comment", "code", "f.ts"⟩,
         ⟨"dup", "bug", "second comment", "code", "f.ts"⟩]).filter
        (fun t => t.identity
          = (PRSuggestion.mk "dup" "bug" "second comment" "code" "f.ts").identity)
      = [⟨"dup", "bug", "second comment", "code", "f.ts"⟩])
    ∧ ∀ s ∈ [PRSuggestion.mk "dup" "bug" "first comment" "code" "f.ts",
             PRSuggestion.mk "dup" "bug" "second comment" "code" "f.ts"],
        ((dedupSuggestions
            [⟨"dup", "bug", "first comment", "code", "f.ts"⟩,
             ⟨"dup", "bug", "second comment", "code", "f.ts"⟩]).filter
            (fun t => t.identity = s.identity)).length = 1 :=
  dedupSuggestions_lastWriteWins
    [⟨"dup", "bug", "first comment", "code", "f.ts"⟩] []
    ⟨"dup", "bug", "second comment", "code", "f.ts"⟩
    (by intro s hs; cases hs)

/-! ### Batch planner invariants -/

theorem addToGroups_mem (gs : List (String × List PRFile)) (key : String)
    (f : PRFile) :
    ∀ g ∈ addToGroups gs key f, ∀ x ∈ g.2,
      (∃ g0 ∈ gs, x ∈ g0.2) ∨ x = f := by
  induction gs with
  | nil =>
    intro g hg x hx
    simp only [addToGroups, List.mem_singleton] at hg
    subst hg
    rcases List.mem_singleton.mp hx with h1
    exact Or.inr h1
  | cons p rest ih =>
    obtain ⟨k, fs⟩ := p
    intro g hg x hx
    by_cases hk : k = key
    · rw [addToGroups, if_pos hk] at hg
      rcases List.mem_cons.mp hg with h1 | h1
      · subst h1
        rcases List.mem_append.mp hx with h2 | h2
        · exact Or.inl ⟨(k, fs), List.mem_cons_self _ _, h2⟩
        · exact Or.inr (List.mem_singleton.mp h2)
      · exact Or.inl ⟨g, List.mem_cons_of_mem _ h1, hx⟩
    · rw [addToGroups, if_neg hk] at hg
      rcases List.mem_cons.mp hg with h1 | h1
      · subst h1
        exact Or.inl ⟨(k, fs), List.mem_cons_self _ _, hx⟩
      · rcases ih g h1 x hx with h2 | h2
        · rcases h2 with ⟨g0, hg0, hxg0⟩
          exact Or.inl ⟨g0, List.mem_cons_of_mem _ hg0, hxg0⟩
        · exact Or.inr h2

theorem groupFilesByExtension_foldl_mem (files : List PRFile) :
    ∀ (gs : List (String × List PRFile)),
    ∀ g ∈ files.foldl
        (fun gs file =>
          let extension := extensionKey file
          if extension = "" then gs else addToGroups gs extension file)
        gs,
      ∀ x ∈ g.2, (∃ g0 ∈ gs, x ∈ g0.2) ∨ x ∈ files := by
  induction files with
  | nil =>
    intro gs g hg x hx
    exact Or.inl ⟨g, hg, hx⟩
  | cons file rest ih =>
    intro gs g hg x hx
    simp only [List.foldl_cons] at hg
    by_cases hk : extensionKey file = ""
    · rw [if_pos hk] at hg
      rcases ih gs g hg x hx with h1 | h1
      · exact Or.inl h1
      · exact Or.inr (List.mem_cons_of_mem _ h1)
    · rw [if_neg hk] at hg
      rcases ih (addToGroups gs (extensionKey file) file) g hg x hx with h1 | h1
      · rcases h1 with ⟨g0, hg0, hxg0⟩
        rcases addToGroups_mem gs (extensionKey file) file g0 hg0 x hxg0 with h2 | h2
        · exact Or.inl h2
        · exact Or.inr (h2 ▸ List.mem_cons_self _ _)
      · exact Or.inr (List.mem_cons_of_mem _ h1)

theorem groupFilesByExtension_mem (files : List PRFile) :
    ∀ g ∈ groupFilesByExtension files, ∀ x ∈ g.2, x ∈ files := by
  intro g hg x hx
  rcases groupFilesByExtension_foldl_mem files [] g hg x hx with h1 | h1
  · rcases h1 with ⟨g0, hg0, _⟩
    cases hg0
  · exact h1

theorem mem_insertByTok (x a : PRFile) (l : List PRFile) :
    a ∈ insertByTok x l ↔ a = x ∨ a ∈ l := by
  induction l with
  | nil => simp [insertByTok]
  | cons y ys ih =>
    by_cases h : x.patchTokenLength ≤ y.patchTokenLength
    · rw [insertByTok, if_pos h]
      simp [List.mem_cons]
    · rw [insertByTok, if_neg h]
      simp only [List.mem_cons, ih]
      tauto

theorem mem_sortByTok (a : PRFile) (l : List PRFile) :
    a ∈ sortByTok l ↔ a ∈ l := by
  induction l with
  | nil => simp [sortByTok]
  | cons y ys ih =>
    show a ∈ insertByTok y (sortByTok ys) ↔ _
    rw [mem_insertByTok, List.mem_cons, ih]

theorem greedy_foldl_fits (fits : List PRFile → Bool) :
    ∀ (l : List PRFile), (∀ f ∈ l, fits [f] = true) →
    ∀ (gs : List (List PRFile)) (cur : List PRFile),
      (∀ g ∈ gs, fits g = true) → (cur = [] ∨ fits cur = true) →
      (∀ g ∈ (l.foldl (greedyStep fits) (gs, cur)).1, fits g = true)
      ∧ ((l.foldl (greedyStep fits) (gs, cur)).2 = []
          ∨ fits (l.foldl (greedyStep fits) (gs, cur)).2 = true) := by
  intro l
  induction l with
  | nil =>
    intro _ gs cur hgs hcur
    exact ⟨hgs, hcur⟩
  | cons f rest ih =>
    intro hl gs cur hgs hcur
    have hf : fits [f] = true := hl f (List.mem_cons_self _ _)
    have hrest : ∀ x ∈ rest, fits [x] = true :=
      fun x hx => hl x (List.mem_cons_of_mem _ hx)
    simp only [List.foldl_cons]
    by_cases hfit : fits (cur ++ [f]) = true
    · have hstep : greedyStep fits (gs, cur) f = (gs, cur ++ [f]) := by
        simp [greedyStep, hfit]
      rw [hstep]
      exact ih hrest gs (cur ++ [f]) hgs (Or.inr hfit)
    · have hcur2 : fits cur = true := by
        rcases hcur with h0 | h0
        · subst h0
          simp only [List.nil_append] at hfit
          exact absurd hf hfit
        · exact h0
      have hstep : greedyStep fits (gs, cur) f = (gs ++ [cur], [f]) := by
        simp [greedyStep, hfit]
      rw [hstep]
      refine ih hrest (gs ++ [cur]) [f] ?_ (Or.inr hf)
      intro g hg
      rcases List.mem_append.mp hg with h1 | h1
      · exact hgs g h1
      · exact (List.mem_singleton.mp h1) ▸ hcur2

theorem greedyGroups_fits (fits : List PRFile → Bool) (l : List PRFile)
    (hl : ∀ f ∈ l, fits [f] = true) :
    ∀ g ∈ greedyGroups fits l, fits g = true := by
  intro g hg
  have h := greedy_foldl_fits fits l hl [] [] (by intro g hg; cases hg)
    (Or.inl rfl)
  rw [greedyGroups] at hg
  by_cases hemp : (l.foldl (greedyStep fits) ([], [])).2.isEmpty = true
  · rw [if_pos hemp] at hg
    exact h.1 g hg
  · rw [if_neg hemp] at hg
    rcases List.mem_append.mp hg with h1 | h1
    · exact h.1 g h1
    · have h2 := List.mem_singleton.mp h1
      subst h2
      rcases h.2 with h3 | h3
      · rw [h3] at hemp
        exact absurd rfl hemp
      · exact h3

theorem processWithinLimitFiles_fits (fits : List PRFile → Bool)
    (files : List PRFile) (h : ∀ f ∈ files, fits [f] = true) :
    ∀ g ∈ processWithinLimitFiles fits files, fits g = true := by
  intro g hg
  rw [processWithinLimitFiles] at hg
  by_cases hall : fits files = true
  · rw [if_pos hall] at hg
    exact (List.mem_singleton.mp hg) ▸ hall
  · rw [if_neg hall] at hg
    rcases List.mem_flatMap.mp hg with ⟨bucket, hbucket, hgb⟩
    by_cases hbf : fits bucket.2 = true
    · rw [if_pos hbf] at hgb
      exact (List.mem_singleton.mp hgb) ▸ hbf
    · rw [if_neg hbf] at hgb
      refine greedyGroups_fits fits (sortByTok bucket.2) ?_ g hgb
      intro x hx
      exact h x (groupFilesByExtension_mem files bucket hbucket x
        ((mem_sortByTok x bucket.2).mp hx))

theorem processOutsideLimitFiles_fits (fits : List PRFile → Bool)
    (files : List PRFile) :
    ∀ g ∈ processOutsideLimitFiles fits files, fits g = true := by
  intro g hg
  rw [processOutsideLimitFiles] at hg
  by_cases hlen : files.length = 0
  · rw [if_pos hlen] at hg
    cases hg
  · rw [if_neg hlen] at hg
    by_cases hall : fits (files.map stripRemovedLines) = true
    · rw [if_pos hall] at hg
      exact (List.mem_singleton.mp hg) ▸ hall
    · rw [if_neg hall] at hg
      refine processWithinLimitFiles_fits fits _ ?_ g hg
      intro f hf
      have h2 := List.of_mem_filter hf
      exact h2

/-- C1: every batch emitted by the batch planner satisfies the fits check at
the moment it is emitted.  For `processWithinLimitFiles` this holds under
the partition precondition established by `reviewChanges` (every offered
file fits alone); `processOutsideLimitFiles` establishes that precondition
itself, and the combined planning phase of `reviewChanges` needs no
precondition at all. -/
theorem planner_batches_fit :
    ∀ (fits : List PRFile → Bool) (files : List PRFile),
      ((∀ f ∈ files, fits [f] = true) →
        ∀ g ∈ processWithinLimitFiles fits files, fits g = true)
      ∧ (∀ g ∈ processOutsideLimitFiles fits files, fits g = true)
      ∧ ∀ (tokLen : PRFile → Nat),
          ∀ g ∈ (reviewChangesPlan fits tokLen files).2, fits g = true := by
  intro fits files
  refine ⟨processWithinLimitFiles_fits fits files,
    processOutsideLimitFiles_fits fits files, ?_⟩
  intro tokLen g hg
  rw [reviewChangesPlan] at hg
  rcases List.mem_append.mp hg with h1 | h1
  · refine processWithinLimitFiles_fits fits _ ?_ g h1
    intro f hf
    have h2 := List.of_mem_filter hf
    exact h2
  · exact processOutsideLimitFiles_fits fits _ g h1

/-- Witness for C1 at a concrete input: a single small file batched by the
whole plan under the concrete spec-modelled budget check. -/
theorem planner_batches_fit_witness :
    specFits 10 [⟨"a.ts", "p", 3, none⟩] = true :=
  (planner_batches_fit (specFits 10) [⟨"a.ts", "p", 3, none⟩]).1
    (by decide) [⟨"a.ts", "p", 3, none⟩] (by decide)

/-! ### Batch planner file accounting -/

theorem count_insertByTok (x a : PRFile) (l : List PRFile) :
    (insertByTok x l).count a = (x :: l).count a := by
  induction l with
  | nil => rfl
  | cons y ys ih =>
    by_cases h : x.patchTokenLength ≤ y.patchTokenLength
    · rw [insertByTok, if_pos h]
    · rw [insertByTok, if_neg h]
      simp only [List.count_cons, ih]
      omega

theorem count_sortByTok (a : PRFile) (l : List PRFile) :
    (sortByTok l).count a = l.count a := by
  induction l with
  | nil => rfl
  | cons y ys ih =>
    show (insertByTok y (sortByTok ys)).count a = _
    rw [count_insertByTok]
    simp [List.count_cons, ih]

theorem greedy_foldl_flatten (fits : List PRFile → Bool) :
    ∀ (l : List PRFile) (gs : List (List PRFile)) (cur : List PRFile),
      ((l.foldl (greedyStep fits) (gs, cur)).1).flatten
          ++ (l.foldl (greedyStep fits) (gs, cur)).2
        = gs.flatten ++ (cur ++ l) := by
  intro l
  induction l with
  | nil => intro gs cur; simp
  | cons f rest ih =>
    intro gs cur
    simp only [List.foldl_cons]
    by_cases hfit : fits (cur ++ [f]) = true
    · rw [show greedyStep fits (gs, cur) f = (gs, cur ++ [f]) by
        simp [greedyStep, hfit]]
      rw [ih gs (cur ++ [f])]
      simp
    · rw [show greedyStep fits (gs, cur) f = (gs ++ [cur], [f]) by
        simp [greedyStep, hfit]]
      rw [ih (gs ++ [cur]) [f]]
      simp

theorem greedyGroups_flatten (fits : List PRFile → Bool) (l : List PRFile) :
    (greedyGroups fits l).flatten = l := by
  have h := greedy_foldl_flatten fits l [] []
  simp only [List.flatten_nil, List.nil_append] at h
  rw [greedyGroups]
  by_cases hemp : (l.foldl (greedyStep fits) ([], [])).2.isEmpty = true
  · rw [if_pos hemp]
    have h2 : (l.foldl (greedyStep fits) ([], [])).2 = [] :=
      List.isEmpty_iff.mp hemp
    rw [h2, List.append_nil] at h
    exact h
  · rw [if_neg hemp, List.flatten_append]
    simpa using h

/-- Total number of copies of `f` held across all extension buckets. -/
def countInGroups (f : PRFile) : List (String × List PRFile) → Nat
  | [] => 0
  | g :: rest => g.2.count f + countInGroups f rest

theorem countInGroups_addToGroups
    (gs : List (String × List PRFile)) (key : String) (x f : PRFile) :
    countInGroups f (addToGroups gs key x)
      = countInGroups f gs + (if x = f then 1 else 0) := by
  induction gs with
  | nil => simp [addToGroups, countInGroups, List.count_cons]
  | cons p rest ih =>
    obtain ⟨k, fs⟩ := p
    by_cases hk : k = key
    · rw [addToGroups, if_pos hk]
      show (fs ++ [x]).count f + countInGroups f rest
        = fs.count f + countInGroups f rest + (if x = f then 1 else 0)
      rw [List.count_append]
      by_cases h2 : x = f
      · subst h2
        simp only [List.count_cons, List.count_nil, beq_self_eq_true,
          if_pos rfl, if_true]
        omega
      · have h3 : ¬ f = x := fun h => h2 h.symm
        simp [List.count_cons, h2, h3]
    · rw [addToGroups, if_neg hk]
      show fs.count f + countInGroups f (addToGroups rest key x)
        = fs.count f + countInGroups f rest + (if x = f then 1 else 0)
      rw [ih, Nat.add_assoc]

theorem countInGroups_groupFoldl (f : PRFile) (hf : extensionKey f ≠ "") :
    ∀ (files : List PRFile) (gs : List (String × List PRFile)),
      countInGroups f (files.foldl
        (fun gs file =>
          let extension := extensionKey file
          if extension = "" then gs else addToGroups gs extension file)
        gs)
      = countInGroups f gs + files.count f := by
  intro files
  induction files with
  | nil => intro gs; simp
  | cons x rest ih =>
    intro gs
    simp only [List.foldl_cons]
    by_cases hk : extensionKey x = ""
    · rw [if_pos hk, ih gs]
      have hxf : ¬ x = f := fun h => hf (h ▸ hk)
      simp [List.count_cons, hxf]
    · rw [if_neg hk, ih (addToGroups gs (extensionKey x) x),
        countInGroups_addToGroups]
      by_cases h2 : x = f
      · subst h2
        simp only [List.count_cons, beq_self_eq_true, if_pos rfl, if_true]
        omega
      · have h3 : ¬ f = x := fun h => h2 h.symm
        simp [List.count_cons, h2, h3]

theorem processWithinLimitFiles_flatten_count (fits : List PRFile → Bool)
    (files : List PRFile) (f : PRFile) (hf : extensionKey f ≠ "") :
    (processWithinLimitFiles fits files).flatten.count f = files.count f := by
  rw [processWithinLimitFiles]
  by_cases hall : fits files = true
  · rw [if_pos hall]
    simp
  · rw [if_neg hall]
    have hbuckets : ∀ gs : List (String × List PRFile),
        ((gs.flatMap (fun g =>
          if fits g.2 then [g.2]
          else greedyGroups fits (sortByTok g.2))).flatten).count f
        = countInGroups f gs := by
      intro gs
      induction gs with
      | nil => rfl
      | cons g rest ih =>
        rw [List.flatMap_cons, List.flatten_append, List.count_append, ih]
        show _ = g.2.count f + countInGroups f rest
        congr 1
        by_cases hb : fits g.2 = true
        · rw [if_pos hb]
          simp
        · rw [if_neg hb, greedyGroups_flatten, count_sortByTok]
    rw [hbuckets (groupFilesByExtension files)]
    have h2 := countInGroups_groupFoldl f hf files []
    simpa [groupFilesByExtension, countInGroups] using h2

theorem countP_of_flatten_count_one (L : List (List PRFile)) (f : PRFile) :
    L.flatten.count f = 1 → L.countP (fun g => decide (f ∈ g)) = 1 := by
  induction L with
  | nil => intro h; simp at h
  | cons g rest ih =>
    intro h
    rw [List.flatten_cons, List.count_append] at h
    rw [List.countP_cons]
    by_cases hg : f ∈ g
    · have hpos : 0 < g.count f := List.count_pos_iff.mpr hg
      have hz : rest.flatten.count f = 0 := by omega
      have hnone : f ∉ rest.flatten := List.count_eq_zero.mp hz
      have hcp : rest.countP (fun g => decide (f ∈ g)) = 0 := by
        apply List.countP_eq_zero.mpr
        intro g2 hg2
        simp only [decide_eq_true_eq]
        intro hfg2
        exact hnone (List.mem_flatten.mpr ⟨g2, hg2, hfg2⟩)
      simp [hcp, hg]
    · have hz : g.count f = 0 := List.count_eq_zero.mpr hg
      have h2 : rest.flatten.count f = 1 := by omega
      simp [hg, ih h2]

/-- C2 counterexample: a file whose filename's last dot-segment is empty
(here `"b."`) has a falsy extension key, so when the whole set exceeds the
limit and the planner regroups by extension, `groupFilesByExtension`
silently drops it even though its single-file conversation fits. -/
theorem processWithinLimitFiles_drops_extensionless :
    specFits 8 [(⟨"b.", "q", 3, none⟩ : PRFile)] = true
    ∧ specFits 8 [(⟨"a.ts", "p", 3, none⟩ : PRFile)] = true
    ∧ processWithinLimitFiles (specFits 8)
        [⟨"a.ts", "p", 3, none⟩, ⟨"b.", "q", 3, none⟩]
      = [[⟨"a.ts", "p", 3, none⟩]] := by
  decide

/-- C2 (amended): every file whose extension key (the lower-cased last
dot-segment of its filename) is non-empty is conserved by
`processWithinLimitFiles` — it occurs in the emitted batches exactly as
often as in the input, and when it occurs exactly once in the input it lies
in exactly one batch.  Files with an empty extension key can be dropped by
the per-extension regrouping. -/
theorem processWithinLimitFiles_conserves_files :
    ∀ (fits : List PRFile → Bool) (files : List PRFile) (f : PRFile),
      extensionKey f ≠ "" →
      (processWithinLimitFiles fits files).flatten.count f = files.count f
      ∧ (files.count f = 1 →
          (processWithinLimitFiles fits files).countP
            (fun g => decide (f ∈ g)) = 1) := by
  intro fits files f hf
  refine ⟨processWithinLimitFiles_flatten_count fits files f hf, ?_⟩
  intro h1
  exact countP_of_flatten_count_one _ f
    ((processWithinLimitFiles_flatten_count fits files f hf).trans h1)

/-- Witness for C2 at a concrete input: two same-extension files that do not
fit together are split into two batches, each file appearing exactly once. -/
theorem processWithinLimitFiles_conserves_files_witness :
    (processWithinLimitFiles (specFits 8)
        [⟨"a.ts", "p", 3, none⟩, ⟨"c.ts", "r", 3, none⟩]).flatten.count
        ⟨"a.ts", "p", 3, none⟩
      = [(⟨"a.ts", "p", 3, none⟩ : PRFile), ⟨"c.ts", "r", 3, none⟩].count
          ⟨"a.ts", "p", 3, none⟩
    ∧ ([(⟨"a.ts", "p", 3, none⟩ : PRFile), ⟨"c.ts", "r", 3, none⟩].count
          ⟨"a.ts", "p", 3, none⟩ = 1 →
        (processWithinLimitFiles (specFits 8)
            [⟨"a.ts", "p", 3, none⟩, ⟨"c.ts", "r", 3, none⟩]).countP
          (fun g => decide ((⟨"a.ts", "p", 3, none⟩ : PRFile) ∈ g)) = 1) :=
  processWithinLimitFiles_conserves_files (specFits 8)
    [⟨"a.ts", "p", 3, none⟩, ⟨"c.ts", "r", 3, none⟩]
    ⟨"a.ts", "p", 3, none⟩ (by decide)

/-! ### Issue deep-link length accounting -/

theorem flatten_replicate_singleton (n : Nat) (c : Char) :
    (List.replicate n [c]).flatten = List.replicate n c := by
  induction n with
  | zero => rfl
  | succ k ih =>
    rw [List.replicate_succ, List.replicate_succ, List.flatten_cons, ih]
    rfl

theorem encodeURIComponent_replicate_length (n : Nat) (c : Char)
    (h : isUnreservedURIChar c = true) :
    (encodeURIComponent ⟨List.replicate n c⟩).length = n := by
  show (((List.replicate n c).map (fun c =>
      if isUnreservedURIChar c then [c]
      else (utf8Bytes c).flatMap
        (fun b => ['%', hexDigit (b / 16), hexDigit (b % 16)]))).flatten).length
    = n
  rw [List.map_replicate]
  simp only [if_pos h]
  rw [flatten_replicate_singleton]
  exact List.length_replicate n c

theorem encodeURIComponent_append (a b : String) :
    encodeURIComponent (a ++ b)
      = encodeURIComponent a ++ encodeURIComponent b := by
  apply String.ext
  show (((a ++ b).data.map _).flatten) = _
  rw [String.data_append, List.map_append, List.flatten_append]
  rfl

/-- C4 counterexample: with a body whose percent-encoding alone is 2100
characters and no code block at all, both the fully-populated URL and the
degraded fallback exceed 2048 characters, so the produced deep-link URL is
longer than the claimed cap. -/
theorem generateGithubIssueUrl_over_cap :
    2048 < (generateGithubIssueUrlCore "o" "r" "t"
      ⟨List.replicate 2100 'a'⟩ none).length := by
  have hbody : (encodeURIComponent ⟨List.replicate 2100 'a'⟩).length = 2100 :=
    encodeURIComponent_replicate_length 2100 'a' (by decide)
  have hbase : (githubIssueBaseUrl "o" "r" "t"
      ⟨List.replicate 2100 'a'⟩).length = 2147 := by
    rw [githubIssueBaseUrl]
    simp only [String.length_append, hbody]
    decide
  rw [generateGithubIssueUrlCore]
  have hurl : (githubIssueBaseUrl "o" "r" "t" ⟨List.replicate 2100 'a'⟩
      ++ encodedCodeBlockPart none).length = 2147 := by
    show (githubIssueBaseUrl "o" "r" "t" ⟨List.replicate 2100 'a'⟩
      ++ "").length = 2147
    rw [String.length_append, hbase]
    rfl
  simp only [hurl]
  rw [if_pos (by omega)]
  omega

/-- C4 (amended): the produced deep-link URL is at most 2048 characters
whenever the code-block-free URL is (in particular the cap cannot be
guaranteed when percent-encoded title and body alone blow the budget), and
whenever the fully-populated URL exceeds 2048 characters the produced URL is
exactly the degraded one without the embedded code block. -/
theorem generateGithubIssueUrl_cap :
    ∀ (owner repoName title body : String) (codeblock : Option String),
      ((githubIssueBaseUrl owner repoName title body).length ≤ 2048 →
        (generateGithubIssueUrlCore owner repoName title body
          codeblock).length ≤ 2048)
      ∧ (2048 < (githubIssueBaseUrl owner repoName title body
            ++ encodedCodeBlockPart codeblock).length →
          generateGithubIssueUrlCore owner repoName title body codeblock
            = githubIssueBaseUrl owner repoName title body) := by
  intro owner repoName title body codeblock
  constructor
  · intro hbase
    rw [generateGithubIssueUrlCore]
    by_cases hurl : 2048 < (githubIssueBaseUrl owner repoName title body
        ++ encodedCodeBlockPart codeblock).length
    · rw [if_pos hurl]
      exact hbase
    · rw [if_neg hurl]
      omega
  · intro hurl
    rw [generateGithubIssueUrlCore, if_pos hurl]

/-- Witness for C4 at a concrete input: a small title and body with a huge
code block — the degraded URL is within budget, the fully-populated URL is
not, and the rendered URL is the degraded one. -/
theorem generateGithubIssueUrl_cap_witness :
    (generateGithubIssueUrlCore "o" "r" "t" "b"
        (some ⟨List.replicate 2100 'a'⟩)).length ≤ 2048
    ∧ generateGithubIssueUrlCore "o" "r" "t" "b"
        (some ⟨List.replicate 2100 'a'⟩)
      = githubIssueBaseUrl "o" "r" "t" "b" := by
  have hcb : (encodedCodeBlockPart (some ⟨List.replicate 2100 'a'⟩)).length
      = 2106 := by
    have hne : ¬ (String.mk (List.replicate 2100 'a') = "") := by
      intro h
      have h2 : (String.mk (List.replicate 2100 'a')).length = 2100 := by
        show (List.replicate 2100 'a').length = 2100
        exact List.length_replicate 2100 'a'
      rw [h] at h2
      exact absurd h2 (by decide)
    show (if String.mk (List.replicate 2100 'a') = "" then ""
      else encodeURIComponent
        ("\n" ++ String.mk (List.replicate 2100 'a') ++ "\n")).length = 2106
    rw [if_neg hne, encodeURIComponent_append, encodeURIComponent_append,
      String.length_append, String.length_append,
      encodeURIComponent_replicate_length 2100 'a' (by decide)]
    decide
  have hfull : 2048 < (githubIssueBaseUrl "o" "r" "t" "b"
      ++ encodedCodeBlockPart (some ⟨List.replicate 2100 'a'⟩)).length := by
    rw [String.length_append, hcb]
    have hbase : (githubIssueBaseUrl "o" "r" "t" "b").length = 48 := by decide
    omega
  exact ⟨(generateGithubIssueUrl_cap "o" "r" "t" "b"
      (some ⟨List.replicate 2100 'a'⟩)).1 (by decide),
    (generateGithubIssueUrl_cap "o" "r" "t" "b"
      (some ⟨List.replicate 2100 'a'⟩)).2 hfull⟩

/-- C5: the retry orchestrator returns the result of the first
(convoBuilder, responseBuilder) pair whose run succeeds, throws exactly when
every pair's run raises, and a response-builder (parse) failure on the
gathered batch outputs makes a pair's `reviewChanges` run raise. -/
theorem reviewChangesRetry_spec :
    ∀ (β ρ : Type) (run : β → Except String ρ),
      (∀ (l₁ l₂ : List β) (b : β) (r : ρ),
          (∀ b2 ∈ l₁, ∃ e, run b2 = Except.error e) →
          run b = Except.ok r →
          reviewChangesRetry (l₁ ++ b :: l₂) run = Except.ok r)
      ∧ (∀ builders : List β,
          ((∃ e, reviewChangesRetry builders run = Except.error e)
            ↔ ∀ b ∈ builders, ∃ e, run b = Except.error e))
      ∧ ∀ (fits : List PRFile → Bool) (tokLen : PRFile → Nat)
          (modelCall : List PRFile → Except String String)
          (responseBuilder : List String → Except String BuilderResponse)
          (files : List PRFile) (fb : List String) (e : String),
          (reviewChangesPlan fits tokLen files).2.mapM modelCall
            = Except.ok fb →
          responseBuilder fb = Except.error e →
          reviewChanges fits tokLen modelCall responseBuilder files
            = Except.error e := by
  intro β ρ run
  refine ⟨?_, ?_, ?_⟩
  · intro l₁
    induction l₁ with
    | nil =>
      intro l₂ b r _ hb
      show reviewChangesRetry (b :: l₂) run = Except.ok r
      rw [reviewChangesRetry, hb]
    | cons x rest ih =>
      intro l₂ b r hfail hb
      obtain ⟨e, he⟩ := hfail x (List.mem_cons_self _ _)
      show reviewChangesRetry (x :: (rest ++ b :: l₂)) run = Except.ok r
      rw [reviewChangesRetry, he]
      exact ih l₂ b r (fun b2 hb2 => hfail b2 (List.mem_cons_of_mem _ hb2)) hb
  · intro builders
    induction builders with
    | nil =>
      constructor
      · intro _ b hb
        cases hb
      · intro _
        exact ⟨"All convoBuilders failed.", rfl⟩
    | cons b rest ih =>
      cases hb : run b with
      | ok r =>
        constructor
        · intro hex
          obtain ⟨e, he⟩ := hex
          rw [reviewChangesRetry, hb] at he
          cases he
        · intro hall
          obtain ⟨e, he⟩ := hall b (List.mem_cons_self _ _)
          rw [hb] at he
          cases he
      | error e1 =>
        constructor
        · intro hex b2 hb2
          rcases List.mem_cons.mp hb2 with h1 | h1
          · exact ⟨_, h1 ▸ hb⟩
          · obtain ⟨e2, he2⟩ := hex
            rw [reviewChangesRetry, hb] at he2
            exact ih.mp ⟨e2, he2⟩ b2 h1
        · intro hall
          obtain ⟨e2, he2⟩ := ih.mpr
            (fun b2 hb2 => hall b2 (List.mem_cons_of_mem _ hb2))
          refine ⟨e2, ?_⟩
          rw [reviewChangesRetry, hb]
          exact he2
  · intro fits tokLen modelCall responseBuilder files fb e hmap hresp
    show ((reviewChangesPlan fits tokLen files).2.mapM modelCall).bind
        responseBuilder = Except.error e
    rw [hmap]
    exact hresp

/-- Witness for C5 at concrete inputs: with a runner failing exactly on
`0`, the orchestrator skips the failing builder and returns the first
success, a list of only-failing builders yields the fatal error, and a
pipeline whose response builder rejects makes `reviewChanges` raise. -/
theorem reviewChangesRetry_spec_witness :
    reviewChangesRetry [0, 1, 2]
        (fun n => if n = 0 then Except.error "boom" else Except.ok n)
      = Except.ok 1
    ∧ (∃ e, reviewChangesRetry [0]
        (fun n => if n = 0 then Except.error "boom"
          else (Except.ok n : Except String Nat)) = Except.error e)
    ∧ reviewChanges (specFits 10) (fun _ => 1) (fun _ => Except.ok "feedback")
        (fun _ => Except.error "parse error") []
      = Except.error "parse error" := by
  refine ⟨?_, ?_, ?_⟩
  · exact (reviewChangesRetry_spec Nat Nat
        (fun n => if n = 0 then Except.error "boom" else Except.ok n)).1
      [0] [2] 1 1
      (by
        intro b2 hb2
        rw [List.mem_singleton] at hb2
        subst hb2
        exact ⟨"boom", rfl⟩)
      rfl
  · exact ((reviewChangesRetry_spec Nat Nat
        (fun n => if n = 0 then Except.error "boom" else Except.ok n)).2.1
      [0]).mpr
      (by
        intro b hb
        rw [List.mem_singleton] at hb
        subst hb
        exact ⟨"boom", rfl⟩)
  · exact (reviewChangesRetry_spec Nat Nat
        (fun n => if n = 0 then Except.error "boom" else Except.ok n)).2.2
      (specFits 10) (fun _ => 1) (fun _ => Except.ok "feedback")
      (fun _ => Except.error "parse error") [] ["feedback"] "parse error"
      rfl rfl

/-- C6: when the re-indented replacement block, trimmed, equals the current
trimmed text of the target line range, the inline-fix synthesis yields no
fix. -/
theorem generateInlineComments_no_op :
    ∀ (suggestionFilename contents : String) (args : InlineFixArgs)
      (indentedCode : String),
      indentCodeFix contents args.code args.lineStart = some indentedCode →
      (joinNewline (jsSlice (splitNewline contents)
          (args.lineStart - 1) args.lineEnd)).trim = indentedCode.trim →
      generateInlineComments suggestionFilename contents args = none := by
  intro fn contents args ind hind htrim
  rw [generateInlineComments, hind]
  have hnew : isCodeSuggestionNew contents
      { file := fn
        line_start := args.lineStart
        line_end := args.lineEnd
        correction := ind
        comment := args.comment } = false := by
    show (if (joinNewline (jsSlice (splitNewline contents)
        (args.lineStart - 1) args.lineEnd)).trim = ind.trim
      then false else true) = false
    rw [if_pos htrim]
  show (if isCodeSuggestionNew contents
      (CodeSuggestion.mk fn args.lineStart args.lineEnd ind args.comment)
        = true
    then some (CodeSuggestion.mk fn args.lineStart args.lineEnd ind
        args.comment)
    else none) = none
  rw [hnew]
  rfl

/-- Witness for C6 at a concrete input: the model proposes exactly the
current text of line 1, so the fix is discarded. -/
theorem generateInlineComments_no_op_witness :
    generateInlineComments "f.ts" "  keep\nrest" ⟨"keep", 1, 1, "note"⟩
      = none :=
  generateInlineComments_no_op "f.ts" "  keep\nrest" ⟨"keep", 1, 1, "note"⟩
    "  keep" (by rfl) (by rfl)

/-- C7: when the filter rejects every incoming file, `processPullRequest`
returns the empty review result without invoking the rest of the pipeline
(the continuation standing for preprocessing, model review and inline-fix
synthesis is never applied, for every possible continuation). -/
theorem processPullRequest_all_filtered :
    ∀ (files : List PRFile) (rest : List PRFile → ReviewResult),
      (∀ f ∈ files, filterPRFile f = false) →
      processPullRequest files rest
        = { review := none, suggestions := [] } := by
  intro files rest h
  have hfil : files.filter filterPRFile = [] := by
    apply List.filter_eq_nil_iff.mpr
    intro f hf
    rw [h f hf]
    exact Bool.false_ne_true
  rw [processPullRequest, hfil]
  rfl

/-- Witness for C7 at a concrete input: a review touching only
`readme.md` produces the empty result even with a continuation that would
report a review. -/
theorem processPullRequest_all_filtered_witness :
    processPullRequest [⟨"readme.md", "p", 1, none⟩]
        (fun _ => { review := some { comment := "x", structuredComments := [] }
                    suggestions := [] })
      = { review := none, suggestions := [] } :=
  processPullRequest_all_filtered [⟨"readme.md", "p", 1, none⟩]
    (fun _ => { review := some { comment := "x", structuredComments := [] }
                suggestions := [] })
    (by decide)

/-- C10: the planning phase never rewrites the diff text of the file
records it is given — after planning, the surviving records hold their
original `patch`, `filename` and `current_contents`, only the memoized
`patchTokenLength` having been written — and `stripRemovedLines` builds a
fresh record (all fields other than `patch` preserved) rather than writing
to its argument, so a fallback retry re-running the plan observes the
original un-stripped patches. -/
theorem reviewChangesPlan_preserves_patches :
    ∀ (fits : List PRFile → Bool) (tokLen : PRFile → Nat)
      (files : List PRFile),
      ((reviewChangesPlan fits tokLen files).1.map PRFile.patch
          = (files.filter filterPRFile).map PRFile.patch
        ∧ (reviewChangesPlan fits tokLen files).1.map PRFile.filename
          = (files.filter filterPRFile).map PRFile.filename
        ∧ (reviewChangesPlan fits tokLen files).1.map PRFile.current_contents
          = (files.filter filterPRFile).map PRFile.current_contents)
      ∧ (∀ f : PRFile,
          (stripRemovedLines f).filename = f.filename
          ∧ (stripRemovedLines f).patchTokenLength = f.patchTokenLength
          ∧ (stripRemovedLines f).current_contents = f.current_contents)
      ∧ ∀ f : PRFile,
          (annotateTokenLength tokLen f).patch = f.patch
          ∧ (annotateTokenLength tokLen f).filename = f.filename
          ∧ (annotateTokenLength tokLen f).current_contents
            = f.current_contents := by
  intro fits tokLen files
  refine ⟨⟨?_, ?_, ?_⟩, ?_, ?_⟩
  · show ((files.filter filterPRFile).map
        (annotateTokenLength tokLen)).map PRFile.patch = _
    rw [List.map_map]
    rfl
  · show ((files.filter filterPRFile).map
        (annotateTokenLength tokLen)).map PRFile.filename = _
    rw [List.map_map]
    rfl
  · show ((files.filter filterPRFile).map
        (annotateTokenLength tokLen)).map PRFile.current_contents = _
    rw [List.map_map]
    rfl
  · intro f
    exact ⟨rfl, rfl, rfl⟩
  · intro f
    exact ⟨rfl, rfl, rfl⟩
